import Mathlib

/-!
Verification development for the FLiME solver
(src/qutip/solver/flimesolve.py).

The shallow embedding below translates the rate-tensor construction
(_floquet_rate_matrix together with _power_density_functions), the
generator assembly (FLiMESolver._create_rhs), the dispatch of flimesolve
on missing collapse operators, and the argument-rejection logic of
FLiMESolver.step / FLiMESolver.run.

Modelling conventions:
* IEEE floating point numbers of the source are modelled by exact
  rationals; complex floats by the structure CQ of two rationals.
* The drive angular frequency omega = 2*pi/T is transcendental, so the
  embedding takes omega as an explicit rational parameter (positive in
  every actual run); all claims are settled for arbitrary omega subject
  only to the hypotheses noted in the theorems.
* The FloquetBasis object (quasi-energies, mode tables) is an external
  collaborator per the spec; the embedding takes the quasi-energy vector
  e : Fin H -> Q directly.
* _c_op_Fourier_amplitudes is a discrete Fourier transform of the
  mode-transformed collapse operator (numpy fft over complex floats,
  hence transcendental); the rate-matrix embedding therefore takes the
  per-operator Fourier amplitude arrays (shape Nt x H x H) as input
  data, exactly the data that flows from that function into
  _floquet_rate_matrix.
-/

set_option maxRecDepth 8000
set_option maxHeartbeats 1000000

unseal Rat.mul Rat.add Rat.inv Rat.sub

namespace Flime

/-- Complex numbers with exact rational components (model of the complex
floating point scalars of the source). -/
structure CQ where
  re : ℚ
  im : ℚ
deriving DecidableEq

def CQ.add (a b : CQ) : CQ := ⟨a.re + b.re, a.im + b.im⟩

def CQ.mul (a b : CQ) : CQ := ⟨a.re * b.re - a.im * b.im, a.re * b.im + a.im * b.re⟩

def CQ.sub (a b : CQ) : CQ := ⟨a.re - b.re, a.im - b.im⟩

/-- Complex conjugate (np.conj). -/
def CQ.conj (a : CQ) : CQ := ⟨a.re, -a.im⟩

/-- Squared magnitude.  The source compares magnitudes of floats; in the
embedding every comparison abs x <= abs y is rendered as
x^2 <= absSq y, which is equivalent since both sides are nonnegative. -/
def CQ.absSq (a : CQ) : ℚ := a.re ^ 2 + a.im ^ 2

/-- Multiplication by a real (rational) scalar. -/
def CQ.rsmul (c : ℚ) (a : CQ) : CQ := ⟨c * a.re, c * a.im⟩

instance : Zero CQ := ⟨⟨0, 0⟩⟩

instance : Add CQ := ⟨CQ.add⟩

instance : AddCommMonoid CQ where
  add := (· + ·)
  zero := 0
  nsmul := nsmulRec
  add_assoc := by
    intro a b c
    show CQ.add (CQ.add a b) c = CQ.add a (CQ.add b c)
    simp only [CQ.add]
    exact congrArg₂ CQ.mk (by ring) (by ring)
  zero_add := by
    intro a
    show CQ.add ⟨0, 0⟩ a = a
    simp only [CQ.add, zero_add]
  add_zero := by
    intro a
    show CQ.add a ⟨0, 0⟩ = a
    simp only [CQ.add, add_zero]
  add_comm := by
    intro a b
    show CQ.add a b = CQ.add b a
    simp only [CQ.add]
    exact congrArg₂ CQ.mk (by ring) (by ring)

instance : Mul CQ := ⟨CQ.mul⟩

instance : Sub CQ := ⟨CQ.sub⟩

instance : One CQ := ⟨⟨1, 0⟩⟩

/-- An H x H complex matrix (one slice of a numpy array). -/
abbrev CMat (H : ℕ) := Fin H → Fin H → CQ

/-- An H^2 x H^2 superoperator matrix, indexed by pairs exactly as the
reshape of the four-index tensor in the source: row (i, p), column
(j, q). -/
abbrev CSup (H : ℕ) := Fin H × Fin H → Fin H × Fin H → CQ

/-- A four-tuple of Hilbert indices (i, j, p, q), the index space of the
four-index tensors delta_m, rate_products and masks. -/
abbrev Idx (H : ℕ) := Fin H × Fin H × Fin H × Fin H

/-- Numpy array indexing with python wrap-around for negative indices:
A[l] is A[l mod Nt].  Outside a positive range the value is never used
by the source; the embedding returns 0 there. -/
def npIndex {α : Type} [Zero α] {Nt : ℕ} (A : Fin Nt → α) (l : ℤ) : α :=
  if h : 0 < Nt then
    A ⟨(l % (Nt : ℤ)).toNat, by
      have h1 : 0 ≤ l % (Nt : ℤ) := Int.emod_nonneg l (by omega)
      have h2 : l % (Nt : ℤ) < (Nt : ℤ) := Int.emod_lt_of_pos l (by omega)
      omega⟩
  else 0

/-- Python int() truncation (toward zero) of a real value. -/
def truncQ (q : ℚ) : ℤ := if 0 ≤ q then ⌊q⌋ else ⌈q⌉

/-- np.linspace(a, b, num = n): n evenly spaced points from a to b,
endpoints included. -/
def linspaceQ (a b : ℚ) (n : ℕ) : List ℚ :=
  if n = 0 then []
  else if n = 1 then [a]
  else (List.range n).map (fun i : ℕ => a + (i : ℚ) * (b - a) / ((n : ℚ) - 1))

/-- The harmonic index list of _floquet_rate_matrix:
np.array(np.linspace(int(-Nt/2), int(Nt/2) - 1, num = Nt), dtype = int). -/
def harmonics (Nt : ℕ) : List ℤ :=
  (linspaceQ (truncQ (-(Nt : ℚ) / 2) : ℤ) ((truncQ ((Nt : ℚ) / 2) : ℤ) - 1) Nt).map truncQ

/-- itertools.product(harmonics, repeat = 2): all ordered pairs (l, k). -/
def pairsLK (Nt : ℕ) : List (ℤ × ℤ) := (harmonics Nt).product (harmonics Nt)

/-- Final index shift of _power_density_functions: array entry k holds
the power spectrum at harmonic k for k < int(Nt/2) - 1 and at harmonic
k - Nt for the remaining k (the last write in the source wins). -/
def fftShiftIdx (Nt : ℕ) (k : ℕ) : ℤ :=
  if (k : ℤ) < ((Nt / 2 : ℕ) : ℤ) - 1 then (k : ℤ) else (k : ℤ) - (Nt : ℤ)

/-- gamma_plus of _power_density_functions:
gamma_plus[k, i, j] = power_spectrum((quasies_i - quasies_j + shift(k)) * omega)
with quasies = e_quasi / omega. -/
def gammaPlusArr {H : ℕ} (e : Fin H → ℚ) (ω : ℚ) (ps : ℚ → ℚ) (Nt : ℕ) :
    Fin Nt → Fin H → Fin H → ℚ :=
  fun k i j => ps ((e i / ω - e j / ω + (fftShiftIdx Nt k.1 : ℚ)) * ω)

/-- gamma_minus of _power_density_functions: same with the negated
frequency argument. -/
def gammaMinusArr {H : ℕ} (e : Fin H → ℚ) (ω : ℚ) (ps : ℚ → ℚ) (Nt : ℕ) :
    Fin Nt → Fin H → Fin H → ℚ :=
  fun k i j => ps ((e i / ω - e j / ω + (fftShiftIdx Nt k.1 : ℚ)) * (-ω))

/-- delta_m of _floquet_rate_matrix after the division by omega:
delta_m[i, j, p, q] = ((e_i - e_j) - (e_p - e_q)) / omega. -/
def delta_m {H : ℕ} (e : Fin H → ℚ) (ω : ℚ) (x : Idx H) : ℚ :=
  ((e x.1 - e x.2.1) - (e x.2.2.1 - e x.2.2.2)) / ω

/-- delta_shift = delta_m + (l - k). -/
def delta_shift {H : ℕ} (e : Fin H → ℚ) (ω : ℚ) (l k : ℤ) (x : Idx H) : ℚ :=
  delta_m e ω x + ((l - k : ℤ) : ℚ)

/-- rate_products[i, j, p, q] = A[l][i, j] * conj(A[k][p, q]) (the outer
product of the l-th amplitude with the conjugated k-th amplitude; both
branches of the source compute the same array). -/
def rate_products {H Nt : ℕ} (A : Fin Nt → CMat H) (l k : ℤ) (x : Idx H) : CQ :=
  (npIndex A l x.1 x.2.1) * CQ.conj (npIndex A k x.2.2.1 x.2.2.2)

/-- included_deltas: abs(delta_shift * omega) <= abs(rate_products * time_sense),
rendered with squares (equivalent for real abs against complex abs). -/
def includedB {H Nt : ℕ} (e : Fin H → ℚ) (ω ts : ℚ) (A : Fin Nt → CMat H)
    (l k : ℤ) (x : Idx H) : Bool :=
  decide ((delta_shift e ω l k x * ω) ^ 2 ≤ CQ.absSq (rate_products A l k x) * ts ^ 2)

/-- np.any(included_deltas): the per-(l, k) skip test.  (The earlier
np.any(mask) test of the secular branch is applied to a nonempty python
dict and is therefore always true; it never skips.) -/
def anyIncludedB {H Nt : ℕ} (e : Fin H → ℚ) (ω ts : ℚ) (A : Fin Nt → CMat H)
    (l k : ℤ) : Bool :=
  decide (∃ x : Idx H, includedB e ω ts A l k x = true)

/-- keys = np.unique(delta_shift[included_deltas]): the set of
delta-shift values attained on included entries. -/
def keySet {H Nt : ℕ} (e : Fin H → ℚ) (ω ts : ℚ) (A : Fin Nt → CMat H)
    (l k : ℤ) : Finset ℚ :=
  (Finset.univ.filter (fun x : Idx H => includedB e ω ts A l k x = true)).image
    (delta_shift e ω l k)

/-- The key set of the python mask dict: in the secular branch
(time_sense <= 0) the entry mask[0] is created first, then the keys of
the unique included delta-shift values are written; otherwise only the
latter. -/
def maskKeys {H Nt : ℕ} (e : Fin H → ℚ) (ω ts : ℚ) (A : Fin Nt → CMat H)
    (l k : ℤ) : Finset ℚ :=
  if ts ≤ 0 then insert 0 (keySet e ω ts A l k) else keySet e ω ts A l k

/-- The boolean mask stored under a given key of the python mask dict:
mask[key] = (delta_shift == key) AND included_deltas, except that in the
secular branch the initial entry mask[0] = (delta_shift == 0) survives
unoverwritten when 0 is not among the unique included keys. -/
def maskB {H Nt : ℕ} (e : Fin H → ℚ) (ω ts : ℚ) (A : Fin Nt → CMat H)
    (l k : ℤ) (key : ℚ) (x : Idx H) : Bool :=
  if ts ≤ 0 ∧ key = 0 ∧ (0 : ℚ) ∉ keySet e ω ts A l k then
    decide (delta_shift e ω l k x = 0)
  else
    decide (delta_shift e ω l k x = key) && includedB e ω ts A l k x

/-- valid_c_op_products = gams * rate_products * mask[key], with
gams[i, j, p, q] = gamma_plus[l][i, j] + gamma_minus[k][p, q] abstracted
into the weight function w. -/
def validProd {H Nt : ℕ} (e : Fin H → ℚ) (ω ts : ℚ) (A : Fin Nt → CMat H)
    (w : ℤ → ℤ → Idx H → ℚ) (l k : ℤ) (key : ℚ) (x : Idx H) : CQ :=
  if maskB e ω ts A l k key x = true then
    CQ.rsmul (w l k x) (rate_products A l k x)
  else 0

/-- tmp2ndterm and tmp3rdterm: np.trace(valid_c_op_products, axis1 = 0,
axis2 = 2), i.e. tmp[a, b] = sum_m valid[m, a, m, b] (the source
computes the same array twice under two names). -/
def traceC02 {H Nt : ℕ} (e : Fin H → ℚ) (ω ts : ℚ) (A : Fin Nt → CMat H)
    (w : ℤ → ℤ → Idx H → ℚ) (l k : ℤ) (key : ℚ) (a b : Fin H) : CQ :=
  ∑ m : Fin H, validProd e ω ts A w l k key (m, a, m, b)

/-- flime_FirstTerm - (1/2) * (flime_SecondTerm + flime_ThirdTerm) as an
H^2 x H^2 matrix: FirstTerm is the (0,2,1,3)-transpose reshape of
valid_c_op_products, SecondTerm = kron(tmp.T, I), ThirdTerm = kron(I, tmp). -/
def pairKeyContrib {H Nt : ℕ} (e : Fin H → ℚ) (ω ts : ℚ) (A : Fin Nt → CMat H)
    (w : ℤ → ℤ → Idx H → ℚ) (l k : ℤ) (key : ℚ) : CSup H :=
  fun r c =>
    validProd e ω ts A w l k key (r.1, c.1, r.2, c.2) -
      CQ.rsmul (1 / 2)
        ((if r.2 = c.2 then traceC02 e ω ts A w l k key c.1 r.1 else 0) +
          (if r.1 = c.1 then traceC02 e ω ts A w l k key r.2 c.2 else 0))

/-- total_R_tensor: a python defaultdict from (float) keys to
superoperator matrices; absent keys read as 0. -/
structure RateDict (H : ℕ) where
  keys : Finset ℚ
  val : ℚ → CSup H

/-- The loop "for key in mask.keys(): total_R_tensor[key] += contrib key":
every key of ks is inserted and its value incremented by f. -/
def RateDict.addMany {H : ℕ} (d : RateDict H) (ks : Finset ℚ) (f : ℚ → CSup H) :
    RateDict H :=
  ⟨d.keys ∪ ks, fun q => if q ∈ ks then d.val q + f q else d.val q⟩

/-- The initial empty defaultdict. -/
def emptyRD (H : ℕ) : RateDict H := ⟨∅, fun _ => 0⟩

/-- One iteration of the (l, k) loop body: skip when no entry passes the
secular test, otherwise accumulate the contribution of every mask key. -/
def accumPair {H Nt : ℕ} (e : Fin H → ℚ) (ω ts : ℚ) (A : Fin Nt → CMat H)
    (w : ℤ → ℤ → Idx H → ℚ) (d : RateDict H) (lk : ℤ × ℤ) : RateDict H :=
  if anyIncludedB e ω ts A lk.1 lk.2 = true then
    d.addMany (maskKeys e ω ts A lk.1 lk.2) (pairKeyContrib e ω ts A w lk.1 lk.2)
  else d

/-- The double loop of _floquet_rate_matrix: over collapse operators
(through their Fourier amplitude arrays) and over all harmonic pairs. -/
def rateCore {H Nt : ℕ} (e : Fin H → ℚ) (ω ts : ℚ) (w : ℤ → ℤ → Idx H → ℚ)
    (c_amps : List (Fin Nt → CMat H)) : RateDict H :=
  c_amps.foldl
    (fun d A => (pairsLK Nt).foldl (fun d2 lk => accumPair e ω ts A w d2 lk) d)
    (emptyRD H)

/-- _floquet_rate_matrix: the full rate tensor mapping, with the weight
gams[i, j, p, q] = gamma_plus[l][i, j] + gamma_minus[k][p, q] taken from
_power_density_functions. -/
def _floquet_rate_matrix (H Nt : ℕ) (e : Fin H → ℚ) (ω ts : ℚ) (ps : ℚ → ℚ)
    (c_amps : List (Fin Nt → CMat H)) : RateDict H :=
  rateCore e ω ts
    (fun l k x =>
      npIndex (gammaPlusArr e ω ps Nt) l x.1 x.2.1 +
        npIndex (gammaMinusArr e ω ps Nt) k x.2.2.1 x.2.2.2)
    c_amps

/-- The unweighted Lindblad rate tensor, following the words of the
spec: the same accumulation with every retained entry weighted by 1. -/
def floquet_rate_matrix_lindblad (H Nt : ℕ) (e : Fin H → ℚ) (ω ts : ℚ)
    (c_amps : List (Fin Nt → CMat H)) : RateDict H :=
  rateCore e ω ts (fun _ _ _ => 1) c_amps

/-- The substitute power spectrum installed by FLiMESolver.__init__ when
none is supplied: the constant function 0.5. -/
def defaultPowerSpectrum : ℚ → ℚ := fun _ => 1 / 2

/-- FLiMESolver.__init__: use the supplied power spectrum, or the
constant 0.5 when the argument is None. -/
def solverPowerSpectrum (ps : Option (ℚ → ℚ)) : ℚ → ℚ := ps.getD defaultPowerSpectrum

/-- The keys contributed to the defaultdict by one (l, k) iteration. -/
def stepKeys {H Nt : ℕ} (e : Fin H → ℚ) (ω ts : ℚ) (A : Fin Nt → CMat H)
    (lk : ℤ × ℤ) : Finset ℚ :=
  if anyIncludedB e ω ts A lk.1 lk.2 = true then maskKeys e ω ts A lk.1 lk.2 else ∅

/-- The keys contributed by a list of (l, k) iterations. -/
def unionKeys {H Nt : ℕ} (e : Fin H → ℚ) (ω ts : ℚ) (A : Fin Nt → CMat H)
    (ps : List (ℤ × ℤ)) : Finset ℚ :=
  ps.foldr (fun lk s => stepKeys e ω ts A lk ∪ s) ∅

/-- The keys contributed by a list of collapse operators. -/
def unionKeysC {H Nt : ℕ} (e : Fin H → ℚ) (ω ts : ℚ)
    (c_amps : List (Fin Nt → CMat H)) : Finset ℚ :=
  c_amps.foldr (fun A s => unionKeys e ω ts A (pairsLK Nt) ∪ s) ∅

/-- An (i, j, p, q) entry is retained by the secular test of a given
(l, k) iteration when some key of the mask dict holds a true mask bit
for it. -/
def retainedB {H Nt : ℕ} (e : Fin H → ℚ) (ω ts : ℚ) (A : Fin Nt → CMat H)
    (l k : ℤ) (x : Idx H) : Bool :=
  decide (∃ key ∈ maskKeys e ω ts A l k, maskB e ω ts A l k key x = true)

/-- Outcome of a flimesolve call that did not raise: either the
delegation to fsesolve (the plain non-dissipative Floquet propagation,
an external collaborator) or a FLiMESolver run driven by the assembled
rate tensor. -/
inductive FlimeOutcome (H : ℕ) : Type where
  | fse : FlimeOutcome H
  | flime : RateDict H → FlimeOutcome H

/-- The dispatch structure of flimesolve: with c_ops None the call
returns fsesolve(...); otherwise a FLiMESolver is built, whose
_create_rhs immediately reads Rate_Qobj_list[0] and hence raises
KeyError when the rate tensor mapping has no key 0. -/
def flimesolve_dispatch (H Nt : ℕ) (e : Fin H → ℚ) (ω ts : ℚ) (ps : ℚ → ℚ)
    (c_amps : Option (List (Fin Nt → CMat H))) : Except String (FlimeOutcome H) :=
  match c_amps with
  | none => Except.ok FlimeOutcome.fse
  | some amps =>
      if 0 ∈ (_floquet_rate_matrix H Nt e ω ts ps amps).keys then
        Except.ok (FlimeOutcome.flime (_floquet_rate_matrix H Nt e ω ts ps amps))
      else Except.error "KeyError: 0"

/-- The default of the Nt keyword of flimesolve: Nt = 2**4. -/
def flimesolveNtDefault : ℕ := 2 ^ 4

/-- The sample count actually used by flimesolve: the caller's explicit
value when given, else the default 2**4 (python default argument). -/
def flimesolveNtChoice (explicitNt : Option ℕ) : ℕ :=
  explicitNt.getD flimesolveNtDefault

/-- First minimiser of f over a list (first occurrence wins on ties). -/
def argminListQ (f : ℕ → ℚ) : List ℕ → ℕ
  | [] => 16
  | h :: t => t.foldl (fun best n => if f n < f best then n else best) h

/-- Modelled from the spec: the Nt inference the spec prescribes when
the caller does not specify the sample count — 16 samples when the
requested output-time spacing dt is coarser than one period T, else the
smallest sample count N whose period-sample spacing T/N most closely
matches dt.  (No such inference exists in the source; flimesolve always
uses the fixed default 2**4.) -/
def specInferredNt (dt T : ℚ) : ℕ :=
  if T < dt then 16
  else argminListQ (fun N => |T / (N : ℚ) - dt|) (List.range' 1 (max 1 (Int.toNat ⌈T / dt⌉)))

/-- Python truthiness of the args parameter of step/run: None and the
empty dict are falsy, any non-empty dict is truthy. -/
def argsTruthy {K V : Type} : Option (List (K × V)) → Bool
  | none => false
  | some l => !l.isEmpty

/-- FLiMESolver.step: "if args: raise ValueError(...)" before the
integrator is advanced; otherwise advance to t (the advance function
stands for the external integrator together with the basis transform). -/
def flime_step {S : Type} (args : Option (List (String × String)))
    (advance : ℚ → S) (t : ℚ) : Except String S :=
  if argsTruthy args = true then Except.error "FLiMESolver cannot update arguments"
  else Except.ok (advance t)

/-- FLiMESolver.run: "if args: raise ValueError(...)" before any state
preparation or integration; otherwise the run proceeds. -/
def flime_run {S : Type} (args : Option (List (String × String)))
    (integrate : List ℚ → S) (tlist : List ℚ) : Except String S :=
  if argsTruthy args = true then Except.error "FLiMESolver cannot update arguments"
  else Except.ok (integrate tlist)

/-- The oscillating coefficient installed by _create_rhs for a nonzero
key: lambda t: np.exp((1j * key * 2 * np.pi * t) / T). -/
noncomputable def expCoeff (T key : ℚ) : ℝ → ℂ :=
  fun t => Complex.exp (Complex.I * (key : ℂ) * 2 * (Real.pi : ℂ) * (t : ℂ) / (T : ℂ))

/-- FLiMESolver._create_rhs: from the rate tensor mapping (an
association list with the unique-key dict invariant) build the QobjEvo
argument list [R[0], [R[key], coeff key] for key in keys - {0}]; the
unguarded access R[0] raises KeyError (None here) when 0 is absent. -/
noncomputable def _create_rhs {n : ℕ} (T : ℚ)
    (m : List (ℚ × Matrix (Fin n) (Fin n) ℂ)) :
    Option (List (Matrix (Fin n) (Fin n) ℂ × (ℝ → ℂ))) :=
  (m.lookup 0).map
    (fun R0 =>
      (R0, fun _ => (1 : ℂ)) ::
        (m.filter (fun p => decide (p.1 ≠ 0))).map (fun p => (p.2, expCoeff T p.1)))

/-- QobjEvo semantics (external collaborator): a list of
(matrix, coefficient) pairs evaluated at time t is the sum of the
matrices scaled by their coefficients at t; a bare matrix carries the
constant coefficient 1. -/
noncomputable def qobjEvoEval {n : ℕ}
    (pairs : List (Matrix (Fin n) (Fin n) ℂ × (ℝ → ℂ))) (t : ℝ) :
    Matrix (Fin n) (Fin n) ℂ :=
  (pairs.map (fun p => p.2 t • p.1)).sum

/-- First entry of an eigensystem list with the eigenvalue of smallest
magnitude (np.argmin over abs of the eigenvalues; first minimum wins). -/
def argminAbsEig {α : Type} : List (CQ × α) → Option (CQ × α)
  | [] => none
  | h :: t =>
      some (t.foldl (fun best x => if CQ.absSq x.1 < CQ.absSq best.1 then x else best) h)

/-- Reshape of a vectorized H^2 density-matrix eigenvector into an
H x H matrix (row-major). -/
def reshapeVec (H : ℕ) (v : Fin (H * H) → CQ) : CMat H :=
  fun i j =>
    v ⟨i.1 * H + j.1, by
      calc i.1 * H + j.1 < i.1 * H + H := Nat.add_lt_add_left j.isLt _
        _ = (i.1 + 1) * H := by ring
        _ ≤ H * H := Nat.mul_le_mul_right H i.isLt⟩

/-- Modelled from the spec: the steadystate() method is absent from the
sources (only the FLiMESolver class body is under src/); per spec 4.4
it is valid only when the cutoff is 0, diagonalizes the static key-0
rate matrix (the diagonalization itself is external numerics, supplied
here as the eigensystem list), selects the eigenvector whose eigenvalue
has smallest magnitude, fails when that eigenvalue is not near zero,
reshapes the eigenvector into a density matrix and transforms it back
to the lab frame at time 0 (the transform toLab is the external
Floquet-basis collaborator evaluated at time 0). -/
def steadystate (H : ℕ) (time_sense : ℚ) (eigs : List (CQ × (Fin (H * H) → CQ)))
    (tol : ℚ) (toLab : CMat H → CMat H) : Except String (CMat H) :=
  if time_sense = 0 then
    match argminAbsEig eigs with
    | none => Except.error "no eigenvalues"
    | some lv =>
        if CQ.absSq lv.1 ≤ tol then Except.ok (toLab (reshapeVec H lv.2))
        else Except.error "no zero eigenvalue"
  else Except.error "invalid configuration"

/-! ### Basic lemmas about the scalar type and the mask logic -/

theorem CQ.extEq {a b : CQ} (h1 : a.re = b.re) (h2 : a.im = b.im) : a = b := by
  cases a; cases b; cases h1; cases h2; rfl

theorem CQ.absSq_nonneg (a : CQ) : 0 ≤ CQ.absSq a :=
  add_nonneg (sq_nonneg _) (sq_nonneg _)

theorem CQ.rsmul_zero (c : ℚ) : CQ.rsmul c 0 = 0 := by
  show CQ.rsmul c ⟨0, 0⟩ = ⟨0, 0⟩
  simp [CQ.rsmul]

theorem CQ.zero_sub_zero : (0 : CQ) - 0 = 0 := by
  show CQ.sub ⟨0, 0⟩ ⟨0, 0⟩ = ⟨0, 0⟩
  simp [CQ.sub]

theorem delta_shift_zero_included {H Nt : ℕ} (e : Fin H → ℚ) (ω ts : ℚ)
    (A : Fin Nt → CMat H) (l k : ℤ) (x : Idx H)
    (h : delta_shift e ω l k x = 0) : includedB e ω ts A l k x = true := by
  simp only [includedB, decide_eq_true_eq, h, zero_mul]
  simpa using mul_nonneg (CQ.absSq_nonneg (rate_products A l k x)) (sq_nonneg ts)

theorem maskB_true_delta {H Nt : ℕ} (e : Fin H → ℚ) (ω ts : ℚ)
    (A : Fin Nt → CMat H) (l k : ℤ) (key : ℚ) (x : Idx H)
    (h : maskB e ω ts A l k key x = true) :
    delta_shift e ω l k x = key ∧ includedB e ω ts A l k x = true := by
  unfold maskB at h
  split_ifs at h with hc
  · have hΔ : delta_shift e ω l k x = 0 := of_decide_eq_true h
    exact ⟨hc.2.1 ▸ hΔ, delta_shift_zero_included e ω ts A l k x hΔ⟩
  · obtain ⟨h1, h2⟩ := Bool.and_eq_true _ _ ▸ h
    exact ⟨of_decide_eq_true h1, h2⟩

theorem mem_keySet_of_included {H Nt : ℕ} (e : Fin H → ℚ) (ω ts : ℚ)
    (A : Fin Nt → CMat H) (l k : ℤ) (x : Idx H)
    (h : includedB e ω ts A l k x = true) :
    delta_shift e ω l k x ∈ keySet e ω ts A l k :=
  Finset.mem_image_of_mem _ (Finset.mem_filter.mpr ⟨Finset.mem_univ _, h⟩)

theorem maskB_self {H Nt : ℕ} (e : Fin H → ℚ) (ω ts : ℚ)
    (A : Fin Nt → CMat H) (l k : ℤ) (x : Idx H)
    (h : includedB e ω ts A l k x = true) :
    maskB e ω ts A l k (delta_shift e ω l k x) x = true := by
  unfold maskB
  split_ifs with hc
  · exact absurd (hc.2.1 ▸ mem_keySet_of_included e ω ts A l k x h) hc.2.2
  · simp [h]

theorem mem_maskKeys_of_mem_keySet {H Nt : ℕ} (e : Fin H → ℚ) (ω ts : ℚ)
    (A : Fin Nt → CMat H) (l k : ℤ) (q : ℚ)
    (h : q ∈ keySet e ω ts A l k) : q ∈ maskKeys e ω ts A l k := by
  unfold maskKeys
  split_ifs with h2
  · exact Finset.mem_insert_of_mem h
  · exact h

/-! ### Claim C2: the secular test is monotone in the cutoff -/

/-- C2: for every pair of cutoff values 0 <= c1 <= c2, every
(i, j, p, q, l, k) entry retained by the secular test of
_floquet_rate_matrix at cutoff c1 is also retained at cutoff c2; in
particular entries present at cutoff 0 are never removed by increasing
the cutoff. -/
theorem secular_retention_monotone {H Nt : ℕ} (e : Fin H → ℚ) (ω : ℚ)
    (A : Fin Nt → CMat H) (l k : ℤ) (x : Idx H) (c₁ c₂ : ℚ)
    (h0 : 0 ≤ c₁) (h12 : c₁ ≤ c₂)
    (hret : retainedB e ω c₁ A l k x = true) :
    retainedB e ω c₂ A l k x = true := by
  obtain ⟨key, hkmem, hkmask⟩ :
      ∃ key ∈ maskKeys e ω c₁ A l k, maskB e ω c₁ A l k key x = true :=
    of_decide_eq_true hret
  obtain ⟨hΔ, hinc⟩ := maskB_true_delta e ω c₁ A l k key x hkmask
  have hinc2 : includedB e ω c₂ A l k x = true := by
    simp only [includedB, decide_eq_true_eq] at hinc ⊢
    calc (delta_shift e ω l k x * ω) ^ 2
        ≤ CQ.absSq (rate_products A l k x) * c₁ ^ 2 := hinc
      _ ≤ CQ.absSq (rate_products A l k x) * c₂ ^ 2 :=
          mul_le_mul_of_nonneg_left (pow_le_pow_left₀ h0 h12 2)
            (CQ.absSq_nonneg (rate_products A l k x))
  apply decide_eq_true
  exact ⟨delta_shift e ω l k x,
    mem_maskKeys_of_mem_keySet e ω c₂ A l k _ (mem_keySet_of_included e ω c₂ A l k x hinc2),
    maskB_self e ω c₂ A l k x hinc2⟩

/-- Witness for C2 at a concrete instance. -/
theorem secular_retention_monotone_witness :
    ((0 : ℚ) ≤ 0 ∧ (0 : ℚ) ≤ 1 ∧
      retainedB (fun _ : Fin 1 => (0 : ℚ)) 1 0
        (fun _ : Fin 1 => fun _ _ => (⟨1, 0⟩ : CQ)) 0 0 (0, 0, 0, 0) = true) ∧
    retainedB (fun _ : Fin 1 => (0 : ℚ)) 1 1
      (fun _ : Fin 1 => fun _ _ => (⟨1, 0⟩ : CQ)) 0 0 (0, 0, 0, 0) = true :=
  ⟨⟨le_refl 0, by norm_num, by decide⟩,
    secular_retention_monotone (fun _ : Fin 1 => (0 : ℚ)) 1
      (fun _ : Fin 1 => fun _ _ => (⟨1, 0⟩ : CQ)) 0 0 (0, 0, 0, 0) 0 1
      (le_refl 0) (by norm_num) (by decide)⟩

/-! ### Claim C4: keys are exact delta-shift values (no rounding) -/

/-- C4 counterexample: in the source no rounding is applied before a
shifted-delta value is used as a mapping key.  With quasi-energies 0
and 1e-13 (a separation far below the 10-decimal precision the file
itself uses elsewhere), the produced mapping holds 0 and 1e-13 as two
distinct keys instead of accumulating them under one key. -/
theorem rate_keys_no_rounding_counterexample :
    (0 : ℚ) ∈ (_floquet_rate_matrix 2 1
        (fun i => if i = 0 then 0 else 1 / 10000000000000) 1 1 (fun _ => 1 / 2)
        [fun _ => fun _ _ => ⟨1, 0⟩]).keys ∧
    (1 / 10000000000000 : ℚ) ∈ (_floquet_rate_matrix 2 1
        (fun i => if i = 0 then 0 else 1 / 10000000000000) 1 1 (fun _ => 1 / 2)
        [fun _ => fun _ _ => ⟨1, 0⟩]).keys ∧
    (1 / 10000000000000 : ℚ) ≠ 0 ∧
    (1 / 10000000000000 : ℚ) < 1 / 10000000000 := by
  refine ⟨by decide, by decide, by norm_num, by norm_num⟩

/-- C4 (amended): before being used as a mapping key a shifted-delta
value is used exactly as computed (no rounding): all entries retained
under one key share exactly equal shifted-delta values, and every entry
passing the secular test is retained under precisely its own
shifted-delta value as key. -/
theorem rate_keys_exact_grouping {H Nt : ℕ} (e : Fin H → ℚ) (ω ts : ℚ)
    (A : Fin Nt → CMat H) (l k : ℤ) (key : ℚ) (x₁ x₂ x₃ : Idx H)
    (h₁ : maskB e ω ts A l k key x₁ = true)
    (h₂ : maskB e ω ts A l k key x₂ = true)
    (h₃ : includedB e ω ts A l k x₃ = true) :
    delta_shift e ω l k x₁ = delta_shift e ω l k x₂ ∧
      delta_shift e ω l k x₃ ∈ keySet e ω ts A l k ∧
      maskB e ω ts A l k (delta_shift e ω l k x₃) x₃ = true := by
  refine ⟨?_, mem_keySet_of_included e ω ts A l k x₃ h₃, maskB_self e ω ts A l k x₃ h₃⟩
  rw [(maskB_true_delta e ω ts A l k key x₁ h₁).1,
    (maskB_true_delta e ω ts A l k key x₂ h₂).1]

/-- Witness for C4 (amended) at a concrete instance. -/
theorem rate_keys_exact_grouping_witness :
    (maskB (fun _ : Fin 1 => (0 : ℚ)) 1 0 (fun _ : Fin 1 => fun _ _ => (⟨1, 0⟩ : CQ))
        0 0 0 (0, 0, 0, 0) = true ∧
      includedB (fun _ : Fin 1 => (0 : ℚ)) 1 0 (fun _ : Fin 1 => fun _ _ => (⟨1, 0⟩ : CQ))
        0 0 (0, 0, 0, 0) = true) ∧
    (delta_shift (fun _ : Fin 1 => (0 : ℚ)) 1 0 0 (0, 0, 0, 0) =
        delta_shift (fun _ : Fin 1 => (0 : ℚ)) 1 0 0 (0, 0, 0, 0) ∧
      delta_shift (fun _ : Fin 1 => (0 : ℚ)) 1 0 0 (0, 0, 0, 0) ∈
        keySet (fun _ : Fin 1 => (0 : ℚ)) 1 0 (fun _ : Fin 1 => fun _ _ => (⟨1, 0⟩ : CQ)) 0 0 ∧
      maskB (fun _ : Fin 1 => (0 : ℚ)) 1 0 (fun _ : Fin 1 => fun _ _ => (⟨1, 0⟩ : CQ)) 0 0
        (delta_shift (fun _ : Fin 1 => (0 : ℚ)) 1 0 0 (0, 0, 0, 0)) (0, 0, 0, 0) = true) :=
  ⟨⟨by decide, by decide⟩,
    rate_keys_exact_grouping (fun _ : Fin 1 => (0 : ℚ)) 1 0
      (fun _ : Fin 1 => fun _ _ => (⟨1, 0⟩ : CQ)) 0 0 0 (0, 0, 0, 0) (0, 0, 0, 0) (0, 0, 0, 0)
      (by decide) (by decide) (by decide)⟩

/-! ### Claim C5: behaviour with no dissipation operators -/

/-- C5 counterexample: with an explicitly empty list of collapse
operators the call does not degrade to a plain Floquet propagation; the
rate tensor mapping is empty, so the generator assembly reads the
missing key 0 and the call fails (KeyError in _create_rhs). -/
theorem flimesolve_empty_cops_counterexample :
    flimesolve_dispatch 2 16 (fun _ => 0) 1 0 (fun _ => 1 / 2) (some []) =
      Except.error "KeyError: 0" := rfl

/-- C5 (amended): with c_ops omitted or None, flimesolve returns the
fsesolve delegation (plain non-dissipative Floquet propagation) without
error; with an empty list it instead builds a FLiMESolver whose
generator assembly fails on the missing key 0. -/
theorem flimesolve_none_fse_empty_error (H Nt : ℕ) (e : Fin H → ℚ) (ω ts : ℚ)
    (ps : ℚ → ℚ) :
    flimesolve_dispatch H Nt e ω ts ps none = Except.ok FlimeOutcome.fse ∧
      flimesolve_dispatch H Nt e ω ts ps (some []) = Except.error "KeyError: 0" := by
  refine ⟨rfl, ?_⟩
  have hk : (_floquet_rate_matrix H Nt e ω ts ps []).keys = ∅ := rfl
  have hnot : ¬(0 ∈ (_floquet_rate_matrix H Nt e ω ts ps []).keys) := by
    rw [hk]; exact Finset.not_mem_empty 0
  show (if 0 ∈ (_floquet_rate_matrix H Nt e ω ts ps []).keys then
      Except.ok (FlimeOutcome.flime (_floquet_rate_matrix H Nt e ω ts ps [])) else
      Except.error "KeyError: 0") = Except.error "KeyError: 0"
  exact if_neg hnot

/-! ### Claim C7: the default sample count -/

/-- C7 counterexample: the source never infers Nt from the requested
output-time spacing; with spacing T/32 the spec inference yields 32
samples while flimesolve uses its fixed default 16. -/
theorem nt_inference_counterexample :
    flimesolveNtChoice none ≠ specInferredNt (1 / 32) 1 := by
  decide

/-- C7 (amended): when the caller does not specify Nt, flimesolve uses
the fixed default 2**4 = 16 regardless of the requested output times;
an explicit value is used as given. -/
theorem nt_default_sixteen (n : ℕ) :
    flimesolveNtChoice none = 16 ∧ flimesolveNtChoice (some n) = n :=
  ⟨rfl, rfl⟩

/-! ### Claim C8: step and run reject argument updates -/

/-- C8: for every non-empty args dictionary both FLiMESolver.step and
FLiMESolver.run raise (before any integration is advanced, hence for
every integrator); with args empty or None neither call raises for that
reason. -/
theorem step_run_reject_args {S : Type} (a : List (String × String))
    (ha : a ≠ []) (advance : ℚ → S) (integrate : List ℚ → S) (t : ℚ)
    (tlist : List ℚ) :
    flime_step (some a) advance t = Except.error "FLiMESolver cannot update arguments" ∧
      flime_run (some a) integrate tlist = Except.error "FLiMESolver cannot update arguments" ∧
      flime_step (none : Option (List (String × String))) advance t = Except.ok (advance t) ∧
      flime_step (some ([] : List (String × String))) advance t = Except.ok (advance t) ∧
      flime_run (none : Option (List (String × String))) integrate tlist = Except.ok (integrate tlist) ∧
      flime_run (some ([] : List (String × String))) integrate tlist = Except.ok (integrate tlist) := by
  have htr : argsTruthy (some a) = true := by
    cases a with
    | nil => exact absurd rfl ha
    | cons h t => rfl
  refine ⟨?_, ?_, rfl, rfl, rfl, rfl⟩
  · unfold flime_step
    rw [if_pos htr]
  · unfold flime_run
    rw [if_pos htr]

/-- Witness for C8 at a concrete instance. -/
theorem step_run_reject_args_witness :
    ([(("a" : String), ("b" : String))] ≠ []) ∧
    (flime_step (some [("a", "b")]) (fun q : ℚ => q) 0 =
        Except.error "FLiMESolver cannot update arguments" ∧
      flime_run (some [("a", "b")]) (fun _ : List ℚ => (0 : ℚ)) [] =
        Except.error "FLiMESolver cannot update arguments" ∧
      flime_step (none : Option (List (String × String))) (fun q : ℚ => q) 0 =
        Except.ok ((fun q : ℚ => q) 0) ∧
      flime_step (some ([] : List (String × String))) (fun q : ℚ => q) 0 =
        Except.ok ((fun q : ℚ => q) 0) ∧
      flime_run (none : Option (List (String × String))) (fun _ : List ℚ => (0 : ℚ)) [] =
        Except.ok ((fun _ : List ℚ => (0 : ℚ)) []) ∧
      flime_run (some ([] : List (String × String))) (fun _ : List ℚ => (0 : ℚ)) [] =
        Except.ok ((fun _ : List ℚ => (0 : ℚ)) [])) :=
  ⟨List.cons_ne_nil _ _,
    step_run_reject_args [("a", "b")] (List.cons_ne_nil _ _) (fun q : ℚ => q)
      (fun _ : List ℚ => (0 : ℚ)) 0 []⟩

/-! ### Claim C10: the default power spectrum yields the unweighted tensor -/

theorem rateCore_congr_w {H Nt : ℕ} (e : Fin H → ℚ) (ω ts : ℚ)
    (w₁ w₂ : ℤ → ℤ → Idx H → ℚ) (c_amps : List (Fin Nt → CMat H))
    (hw : ∀ l k x, w₁ l k x = w₂ l k x) :
    rateCore e ω ts w₁ c_amps = rateCore e ω ts w₂ c_amps := by
  have hstep : (fun (d : RateDict H) (A : Fin Nt → CMat H) =>
      (pairsLK Nt).foldl (fun d2 lk => accumPair e ω ts A w₁ d2 lk) d) =
      (fun d A => (pairsLK Nt).foldl (fun d2 lk => accumPair e ω ts A w₂ d2 lk) d) := by
    funext d A
    have hacc : (fun (d2 : RateDict H) (lk : ℤ × ℤ) => accumPair e ω ts A w₁ d2 lk) =
        (fun d2 lk => accumPair e ω ts A w₂ d2 lk) := by
      funext d2 lk
      unfold accumPair
      have hc : pairKeyContrib e ω ts A w₁ lk.1 lk.2 = pairKeyContrib e ω ts A w₂ lk.1 lk.2 := by
        funext key r c
        unfold pairKeyContrib traceC02 validProd
        simp only [hw]
      rw [hc]
    rw [hacc]
  unfold rateCore
  rw [hstep]

/-- C10: when no power_spectrum is supplied to FLiMESolver, the constant
function 0.5 is substituted, every retained entry is weighted by
gamma_plus + gamma_minus = 0.5 + 0.5 = 1, and the constructed mapping
coincides with the unweighted Lindblad rate tensor. -/
theorem default_power_spectrum_unweighted (H Nt : ℕ) (e : Fin H → ℚ) (ω ts : ℚ)
    (c_amps : List (Fin Nt → CMat H)) :
    solverPowerSpectrum none = defaultPowerSpectrum ∧
      _floquet_rate_matrix H Nt e ω ts (solverPowerSpectrum none) c_amps =
        floquet_rate_matrix_lindblad H Nt e ω ts c_amps := by
  refine ⟨rfl, ?_⟩
  unfold _floquet_rate_matrix floquet_rate_matrix_lindblad
  rcases Nat.eq_zero_or_pos Nt with hNt | hNt
  · subst hNt
    unfold rateCore
    have hp : pairsLK 0 = [] := rfl
    rw [hp]
    simp only [List.foldl_nil]
  · apply rateCore_congr_w
    intro l k x
    show npIndex (gammaPlusArr e ω (solverPowerSpectrum none) Nt) l x.1 x.2.1 +
        npIndex (gammaMinusArr e ω (solverPowerSpectrum none) Nt) k x.2.2.1 x.2.2.2 = 1
    unfold npIndex
    rw [dif_pos hNt, dif_pos hNt]
    unfold gammaPlusArr gammaMinusArr solverPowerSpectrum defaultPowerSpectrum
    norm_num

/-! ### Claim C3: the assembled time-dependent generator -/

/-- C3: the generator assembled by _create_rhs, evaluated at time t
under the QobjEvo semantics, equals the key-0 matrix of the rate tensor
mapping plus, for every other key k of the mapping, the matrix of key k
multiplied by exp(i*k*(2*pi/T)*t); no other term appears. -/
theorem create_rhs_eval {n : ℕ} (T : ℚ) (m : List (ℚ × Matrix (Fin n) (Fin n) ℂ))
    (R0 : Matrix (Fin n) (Fin n) ℂ)
    (pairs : List (Matrix (Fin n) (Fin n) ℂ × (ℝ → ℂ))) (t : ℝ)
    (hp : _create_rhs T m = some pairs) (h0 : m.lookup 0 = some R0) :
    qobjEvoEval pairs t =
      R0 + ((m.filter (fun p => decide (p.1 ≠ 0))).map
        (fun p => Complex.exp (Complex.I * (p.1 : ℂ) * (2 * (Real.pi : ℂ) / (T : ℂ)) * (t : ℂ)) • p.2)).sum := by
  unfold _create_rhs at hp
  rw [h0, Option.map_some'] at hp
  have hp2 := Option.some_inj.mp hp
  subst hp2
  unfold qobjEvoEval
  simp only [List.map_cons, List.sum_cons, List.map_map, one_smul]
  have hfun : ((fun (p : Matrix (Fin n) (Fin n) ℂ × (ℝ → ℂ)) => p.2 t • p.1) ∘
      (fun (p : ℚ × Matrix (Fin n) (Fin n) ℂ) => (p.2, expCoeff T p.1))) =
      (fun p : ℚ × Matrix (Fin n) (Fin n) ℂ =>
        Complex.exp (Complex.I * (p.1 : ℂ) * (2 * (Real.pi : ℂ) / (T : ℂ)) * (t : ℂ)) • p.2) := by
    funext p
    simp only [Function.comp_apply, expCoeff]
    have harg : Complex.I * (p.1 : ℂ) * 2 * (Real.pi : ℂ) * (t : ℂ) / (T : ℂ) =
        Complex.I * (p.1 : ℂ) * (2 * (Real.pi : ℂ) / (T : ℂ)) * (t : ℂ) := by
      ring
    rw [harg]
  rw [hfun]

/-- Witness for C3 at a concrete instance. -/
theorem create_rhs_eval_witness :
    (_create_rhs (n := 1) 1 [((0 : ℚ), (0 : Matrix (Fin 1) (Fin 1) ℂ))] =
        some [((0 : Matrix (Fin 1) (Fin 1) ℂ), fun _ => (1 : ℂ))] ∧
      List.lookup (0 : ℚ) [((0 : ℚ), (0 : Matrix (Fin 1) (Fin 1) ℂ))] =
        some (0 : Matrix (Fin 1) (Fin 1) ℂ)) ∧
    qobjEvoEval [((0 : Matrix (Fin 1) (Fin 1) ℂ), fun _ => (1 : ℂ))] 0 =
      (0 : Matrix (Fin 1) (Fin 1) ℂ) +
        (([((0 : ℚ), (0 : Matrix (Fin 1) (Fin 1) ℂ))].filter
            (fun p => decide (p.1 ≠ 0))).map
          (fun p => Complex.exp (Complex.I * (p.1 : ℂ) * (2 * (Real.pi : ℂ) / ((1 : ℚ) : ℂ)) * ((0 : ℝ) : ℂ)) • p.2)).sum :=
  ⟨⟨rfl, rfl⟩,
    create_rhs_eval 1 [((0 : ℚ), (0 : Matrix (Fin 1) (Fin 1) ℂ))]
      (0 : Matrix (Fin 1) (Fin 1) ℂ)
      [((0 : Matrix (Fin 1) (Fin 1) ℂ), fun _ => (1 : ℂ))] 0 rfl rfl⟩

/-! ### Claim C6: the steadystate method (modelled from the spec) -/

theorem argmin_foldl_le {α : Type} (t : List (CQ × α)) (b : CQ × α) :
    CQ.absSq (t.foldl (fun best x => if CQ.absSq x.1 < CQ.absSq best.1 then x else best) b).1 ≤
        CQ.absSq b.1 ∧
      ∀ x ∈ t,
        CQ.absSq (t.foldl (fun best x => if CQ.absSq x.1 < CQ.absSq best.1 then x else best) b).1 ≤
          CQ.absSq x.1 := by
  induction t generalizing b with
  | nil => exact ⟨le_refl _, fun x hx => absurd hx (List.not_mem_nil x)⟩
  | cons h tl ih =>
      rw [List.foldl_cons]
      constructor
      · refine le_trans (ih _).1 ?_
        dsimp only
        split_ifs with hlt
        · exact le_of_lt hlt
        · exact le_refl _
      · intro x hx
        rcases List.mem_cons.mp hx with rfl | hx2
        · refine le_trans (ih _).1 ?_
          dsimp only
          split_ifs with hlt
          · exact le_refl _
          · exact le_of_not_lt hlt
        · exact (ih _).2 x hx2

theorem argminAbsEig_min {α : Type} (eigs : List (CQ × α)) (lam : CQ) (v : α)
    (hmin : argminAbsEig eigs = some (lam, v)) :
    ∀ x ∈ eigs, CQ.absSq lam ≤ CQ.absSq x.1 := by
  cases eigs with
  | nil => simp [argminAbsEig] at hmin
  | cons h tl =>
      unfold argminAbsEig at hmin
      have heq := Option.some_inj.mp hmin
      intro x hx
      have h1 := (argmin_foldl_le tl h).1
      have h2 := (argmin_foldl_le tl h).2
      rw [heq] at h1 h2
      rcases List.mem_cons.mp hx with rfl | hx2
      · exact h1
      · exact h2 x hx2

/-- C6 (spec-modelled): steadystate() under cutoff 0 selects the
eigenvector of the key-0 rate matrix whose eigenvalue has smallest
magnitude, reshapes it into a density matrix and returns it transformed
to the lab frame at time 0; for every cutoff > 0 it fails with the
"invalid configuration" error. -/
theorem steadystate_secular_only (H : ℕ) (ts : ℚ)
    (eigs : List (CQ × (Fin (H * H) → CQ))) (tol : ℚ) (toLab : CMat H → CMat H)
    (lam : CQ) (v : Fin (H * H) → CQ) (x : CQ × (Fin (H * H) → CQ))
    (hts : 0 < ts) (hmin : argminAbsEig eigs = some (lam, v))
    (htol : CQ.absSq lam ≤ tol) (hx : x ∈ eigs) :
    steadystate H ts eigs tol toLab = Except.error "invalid configuration" ∧
      steadystate H 0 eigs tol toLab = Except.ok (toLab (reshapeVec H v)) ∧
      CQ.absSq lam ≤ CQ.absSq x.1 := by
  refine ⟨?_, ?_, argminAbsEig_min eigs lam v hmin x hx⟩
  · unfold steadystate
    rw [if_neg (ne_of_gt hts)]
  · unfold steadystate
    rw [if_pos rfl, hmin]
    dsimp only
    rw [if_pos htol]

/-- Witness for C6 at a concrete instance. -/
theorem steadystate_secular_only_witness :
    ((0 : ℚ) < 1 ∧
      argminAbsEig [((⟨3, 0⟩ : CQ), fun _ : Fin (1 * 1) => (⟨1, 0⟩ : CQ)),
          ((⟨0, 0⟩ : CQ), fun _ : Fin (1 * 1) => (⟨2, 0⟩ : CQ))] =
        some ((⟨0, 0⟩ : CQ), fun _ : Fin (1 * 1) => (⟨2, 0⟩ : CQ)) ∧
      CQ.absSq (⟨0, 0⟩ : CQ) ≤ 0 ∧
      ((⟨3, 0⟩ : CQ), fun _ : Fin (1 * 1) => (⟨1, 0⟩ : CQ)) ∈
        [((⟨3, 0⟩ : CQ), fun _ : Fin (1 * 1) => (⟨1, 0⟩ : CQ)),
          ((⟨0, 0⟩ : CQ), fun _ : Fin (1 * 1) => (⟨2, 0⟩ : CQ))]) ∧
    (steadystate 1 1 [((⟨3, 0⟩ : CQ), fun _ : Fin (1 * 1) => (⟨1, 0⟩ : CQ)),
          ((⟨0, 0⟩ : CQ), fun _ : Fin (1 * 1) => (⟨2, 0⟩ : CQ))] 0 id =
        Except.error "invalid configuration" ∧
      steadystate 1 0 [((⟨3, 0⟩ : CQ), fun _ : Fin (1 * 1) => (⟨1, 0⟩ : CQ)),
          ((⟨0, 0⟩ : CQ), fun _ : Fin (1 * 1) => (⟨2, 0⟩ : CQ))] 0 id =
        Except.ok (id (reshapeVec 1 (fun _ : Fin (1 * 1) => (⟨2, 0⟩ : CQ)))) ∧
      CQ.absSq (⟨0, 0⟩ : CQ) ≤ CQ.absSq (⟨3, 0⟩ : CQ)) :=
  ⟨⟨by norm_num, by decide, by decide, by decide⟩,
    steadystate_secular_only 1 1
      [((⟨3, 0⟩ : CQ), fun _ : Fin (1 * 1) => (⟨1, 0⟩ : CQ)),
        ((⟨0, 0⟩ : CQ), fun _ : Fin (1 * 1) => (⟨2, 0⟩ : CQ))] 0 id
      (⟨0, 0⟩ : CQ) (fun _ : Fin (1 * 1) => (⟨2, 0⟩ : CQ))
      ((⟨3, 0⟩ : CQ), fun _ : Fin (1 * 1) => (⟨1, 0⟩ : CQ))
      (by norm_num) (by decide) (by decide) (by decide)⟩

/-! ### Key-set bookkeeping for the defaultdict folds -/

theorem addMany_keys {H : ℕ} (d : RateDict H) (ks : Finset ℚ) (f : ℚ → CSup H) :
    (d.addMany ks f).keys = d.keys ∪ ks := rfl

theorem accumPair_keys {H Nt : ℕ} (e : Fin H → ℚ) (ω ts : ℚ) (A : Fin Nt → CMat H)
    (w : ℤ → ℤ → Idx H → ℚ) (d : RateDict H) (lk : ℤ × ℤ) :
    (accumPair e ω ts A w d lk).keys = d.keys ∪ stepKeys e ω ts A lk := by
  unfold accumPair stepKeys
  split_ifs with h
  · rfl
  · exact (Finset.union_empty _).symm

theorem foldl_pairs_keys {H Nt : ℕ} (e : Fin H → ℚ) (ω ts : ℚ) (A : Fin Nt → CMat H)
    (w : ℤ → ℤ → Idx H → ℚ) (ps : List (ℤ × ℤ)) (d : RateDict H) :
    (ps.foldl (fun d2 lk => accumPair e ω ts A w d2 lk) d).keys =
      d.keys ∪ unionKeys e ω ts A ps := by
  induction ps generalizing d with
  | nil => simp [unionKeys]
  | cons lk t ih =>
      rw [List.foldl_cons, ih, accumPair_keys]
      simp only [unionKeys, List.foldr_cons, Finset.union_assoc]

theorem foldl_camps_keys {H Nt : ℕ} (e : Fin H → ℚ) (ω ts : ℚ)
    (w : ℤ → ℤ → Idx H → ℚ) (c_amps : List (Fin Nt → CMat H)) (d : RateDict H) :
    (c_amps.foldl
        (fun d A => (pairsLK Nt).foldl (fun d2 lk => accumPair e ω ts A w d2 lk) d)
        d).keys =
      d.keys ∪ unionKeysC e ω ts c_amps := by
  induction c_amps generalizing d with
  | nil => simp [unionKeysC]
  | cons A t ih =>
      rw [List.foldl_cons, ih, foldl_pairs_keys]
      simp only [unionKeysC, List.foldr_cons, Finset.union_assoc]

theorem rateCore_keys {H Nt : ℕ} (e : Fin H → ℚ) (ω ts : ℚ)
    (w : ℤ → ℤ → Idx H → ℚ) (c_amps : List (Fin Nt → CMat H)) :
    (rateCore e ω ts w c_amps).keys = unionKeysC e ω ts c_amps := by
  unfold rateCore
  rw [foldl_camps_keys]
  show (emptyRD H).keys ∪ _ = _
  rw [show (emptyRD H).keys = ∅ from rfl, Finset.empty_union]

theorem mem_unionKeys {H Nt : ℕ} (e : Fin H → ℚ) (ω ts : ℚ) (A : Fin Nt → CMat H)
    (q : ℚ) (ps : List (ℤ × ℤ)) :
    q ∈ unionKeys e ω ts A ps ↔ ∃ lk ∈ ps, q ∈ stepKeys e ω ts A lk := by
  induction ps with
  | nil => simp [unionKeys]
  | cons lk t ih =>
      simp only [unionKeys, List.foldr_cons, Finset.mem_union] at ih ⊢
      rw [ih]
      constructor
      · rintro (h1 | ⟨lk2, hlk2, h2⟩)
        · exact ⟨lk, List.mem_cons_self lk t, h1⟩
        · exact ⟨lk2, List.mem_cons_of_mem _ hlk2, h2⟩
      · rintro ⟨lk2, hlk2, h2⟩
        rcases List.mem_cons.mp hlk2 with rfl | hlk3
        · exact Or.inl h2
        · exact Or.inr ⟨lk2, hlk3, h2⟩

theorem mem_unionKeysC {H Nt : ℕ} (e : Fin H → ℚ) (ω ts : ℚ) (q : ℚ)
    (c_amps : List (Fin Nt → CMat H)) :
    q ∈ unionKeysC e ω ts c_amps ↔
      ∃ A ∈ c_amps, q ∈ unionKeys e ω ts A (pairsLK Nt) := by
  induction c_amps with
  | nil => simp [unionKeysC]
  | cons A t ih =>
      simp only [unionKeysC, List.foldr_cons, Finset.mem_union] at ih ⊢
      rw [ih]
      constructor
      · rintro (h1 | ⟨A2, hA2, h2⟩)
        · exact ⟨A, List.mem_cons_self A t, h1⟩
        · exact ⟨A2, List.mem_cons_of_mem _ hA2, h2⟩
      · rintro ⟨A2, hA2, h2⟩
        rcases List.mem_cons.mp hA2 with rfl | hA3
        · exact Or.inl h2
        · exact Or.inr ⟨A2, hA3, h2⟩

/-! ### The fully secular (cutoff 0) limit -/

theorem included_ts0_delta_zero {H Nt : ℕ} (e : Fin H → ℚ) (ω : ℚ)
    (A : Fin Nt → CMat H) (l k : ℤ) (x : Idx H) (hω : ω ≠ 0)
    (h : includedB e ω 0 A l k x = true) : delta_shift e ω l k x = 0 := by
  simp only [includedB, decide_eq_true_eq] at h
  have h0 : (delta_shift e ω l k x * ω) ^ 2 ≤ 0 := by simpa using h
  have h1 : delta_shift e ω l k x * ω = 0 :=
    (pow_eq_zero_iff two_ne_zero).mp (le_antisymm h0 (sq_nonneg _))
  rcases mul_eq_zero.mp h1 with h2 | h2
  · exact h2
  · exact absurd h2 hω

theorem keySet_ts0_subset {H Nt : ℕ} (e : Fin H → ℚ) (ω : ℚ)
    (A : Fin Nt → CMat H) (l k : ℤ) (hω : ω ≠ 0) :
    keySet e ω 0 A l k ⊆ {0} := by
  intro q hq
  simp only [keySet, Finset.mem_image, Finset.mem_filter, Finset.mem_univ, true_and] at hq
  obtain ⟨x, hinc, rfl⟩ := hq
  simp [included_ts0_delta_zero e ω A l k x hω hinc]

theorem maskKeys_ts0_eq {H Nt : ℕ} (e : Fin H → ℚ) (ω : ℚ)
    (A : Fin Nt → CMat H) (l k : ℤ) (hω : ω ≠ 0) :
    maskKeys e ω 0 A l k = {0} := by
  unfold maskKeys
  rw [if_pos (le_refl (0 : ℚ))]
  apply Finset.Subset.antisymm
  · intro q hq
    rcases Finset.mem_insert.mp hq with rfl | h
    · exact Finset.mem_singleton_self 0
    · exact keySet_ts0_subset e ω A l k hω h
  · intro q hq
    rw [Finset.mem_singleton] at hq
    subst hq
    exact Finset.mem_insert_self 0 _

theorem delta_shift_diag {H : ℕ} (e : Fin H → ℚ) (ω : ℚ) (l : ℤ) (i j : Fin H) :
    delta_shift e ω l l (i, j, i, j) = 0 := by
  simp [delta_shift, delta_m]

theorem anyIncluded_diag {H Nt : ℕ} (e : Fin H → ℚ) (ω ts : ℚ)
    (A : Fin Nt → CMat H) (l : ℤ) (hH : 0 < H) :
    anyIncludedB e ω ts A l l = true := by
  apply decide_eq_true
  refine ⟨(⟨0, hH⟩, ⟨0, hH⟩, ⟨0, hH⟩, ⟨0, hH⟩), ?_⟩
  exact delta_shift_zero_included e ω ts A l l _ (delta_shift_diag e ω l _ _)

theorem zero_mem_keySet_diag {H Nt : ℕ} (e : Fin H → ℚ) (ω ts : ℚ)
    (A : Fin Nt → CMat H) (l : ℤ) (hH : 0 < H) :
    (0 : ℚ) ∈ keySet e ω ts A l l := by
  have hx := delta_shift_diag e ω l (⟨0, hH⟩ : Fin H) ⟨0, hH⟩
  have hinc := delta_shift_zero_included e ω ts A l l _ hx
  have hmem := mem_keySet_of_included e ω ts A l l _ hinc
  rwa [hx] at hmem

theorem linspaceQ_length (a b : ℚ) (n : ℕ) : (linspaceQ a b n).length = n := by
  unfold linspaceQ
  split_ifs with h1 h2
  · simp [h1]
  · simp [h2]
  · simp

theorem harmonics_length (Nt : ℕ) : (harmonics Nt).length = Nt := by
  unfold harmonics
  rw [List.length_map, linspaceQ_length]

theorem harmonics_ne_nil {Nt : ℕ} (h : 0 < Nt) : harmonics Nt ≠ [] := by
  intro hc
  have hl := harmonics_length Nt
  rw [hc] at hl
  simp at hl
  omega

/-! ### Claim C1: the cutoff-0 mapping has only the key 0 -/

/-- C1 counterexample: the claim quantifies over every list of collapse
operators; with the empty list the mapping is empty and has no key at
all, in particular not exactly the one key 0. -/
theorem secular_rate_tensor_empty_counterexample :
    (_floquet_rate_matrix 1 16 (fun _ => 0) 1 0 (fun _ => 1 / 2) []).keys ≠ {0} := by
  decide

/-- C1 (amended): for every nonempty list of collapse-operator
amplitude arrays, every Floquet basis with at least one level, at least
one sample (Nt >= 1) and nonzero drive frequency, the cutoff-0 rate
tensor mapping contains exactly the key 0, and every entry retained by
any mask of the secular test has shifted quasi-energy difference
exactly 0. -/
theorem secular_rate_tensor_only_key_zero {H Nt : ℕ} (e : Fin H → ℚ) (ω : ℚ)
    (ps : ℚ → ℚ) (c_amps : List (Fin Nt → CMat H)) (A : Fin Nt → CMat H)
    (hH : 0 < H) (hNt : 0 < Nt) (hω : ω ≠ 0) (hc : c_amps ≠ [])
    (l k : ℤ) (key : ℚ) (x : Idx H) :
    (_floquet_rate_matrix H Nt e ω 0 ps c_amps).keys = {0} ∧
      (key ∈ maskKeys e ω 0 A l k → maskB e ω 0 A l k key x = true →
        delta_shift e ω l k x = 0) := by
  constructor
  · unfold _floquet_rate_matrix
    rw [rateCore_keys]
    apply Finset.Subset.antisymm
    · intro q hq
      rw [mem_unionKeysC] at hq
      obtain ⟨A2, _, hq2⟩ := hq
      rw [mem_unionKeys] at hq2
      obtain ⟨lk, _, hq3⟩ := hq2
      unfold stepKeys at hq3
      split_ifs at hq3 with hany
      · rw [maskKeys_ts0_eq e ω A2 lk.1 lk.2 hω] at hq3
        exact hq3
      · exact absurd hq3 (Finset.not_mem_empty q)
    · intro q hq
      rw [Finset.mem_singleton] at hq
      subst hq
      obtain ⟨A0, rest, rfl⟩ := List.exists_cons_of_ne_nil hc
      rw [mem_unionKeysC]
      refine ⟨A0, List.mem_cons_self _ _, ?_⟩
      rw [mem_unionKeys]
      refine ⟨((harmonics Nt).head (harmonics_ne_nil hNt),
        (harmonics Nt).head (harmonics_ne_nil hNt)), ?_, ?_⟩
      · unfold pairsLK
        exact List.pair_mem_product.mpr ⟨List.head_mem _, List.head_mem _⟩
      · unfold stepKeys
        rw [if_pos (anyIncluded_diag e ω 0 A0 _ hH)]
        rw [maskKeys_ts0_eq e ω A0 _ _ hω]
        exact Finset.mem_singleton_self 0
  · intro _ hmask
    exact included_ts0_delta_zero e ω A l k x hω
      (maskB_true_delta e ω 0 A l k key x hmask).2

/-- Witness for C1 (amended) at a concrete instance. -/
theorem secular_rate_tensor_only_key_zero_witness :
    ((0 : ℕ) < 1 ∧ ((1 : ℚ) ≠ 0) ∧
      ([fun _ : Fin 1 => fun _ _ => (⟨1, 0⟩ : CQ)] : List (Fin 1 → CMat 1)) ≠ []) ∧
    ((_floquet_rate_matrix 1 1 (fun _ => 0) 1 0 (fun _ => 1 / 2)
        [fun _ => fun _ _ => ⟨1, 0⟩]).keys = {0} ∧
      ((0 : ℚ) ∈ maskKeys (fun _ : Fin 1 => (0 : ℚ)) 1 0
          (fun _ : Fin 1 => fun _ _ => (⟨1, 0⟩ : CQ)) 0 0 →
        maskB (fun _ : Fin 1 => (0 : ℚ)) 1 0
          (fun _ : Fin 1 => fun _ _ => (⟨1, 0⟩ : CQ)) 0 0 0 (0, 0, 0, 0) = true →
        delta_shift (fun _ : Fin 1 => (0 : ℚ)) 1 0 0 (0, 0, 0, 0) = 0)) :=
  ⟨⟨Nat.one_pos, by norm_num, List.cons_ne_nil _ _⟩,
    secular_rate_tensor_only_key_zero (fun _ : Fin 1 => (0 : ℚ)) 1 (fun _ => 1 / 2)
      [fun _ => fun _ _ => ⟨1, 0⟩] (fun _ : Fin 1 => fun _ _ => (⟨1, 0⟩ : CQ))
      Nat.one_pos Nat.one_pos (by norm_num) (List.cons_ne_nil _ _) 0 0 0 (0, 0, 0, 0)⟩

/-! ### Claim C9: negative cutoffs -/

theorem pairKeyContrib_eq_zero {H Nt : ℕ} (e : Fin H → ℚ) (ω ts : ℚ)
    (A : Fin Nt → CMat H) (w : ℤ → ℤ → Idx H → ℚ) (l k : ℤ) (key : ℚ)
    (hmask : ∀ x : Idx H, maskB e ω ts A l k key x = false) :
    pairKeyContrib e ω ts A w l k key = (0 : CSup H) := by
  funext r c
  have hv : ∀ x : Idx H, validProd e ω ts A w l k key x = 0 := by
    intro x
    unfold validProd
    rw [hmask x]
    simp
  have ht : ∀ a b : Fin H, traceC02 e ω ts A w l k key a b = 0 := by
    intro a b
    unfold traceC02
    simp [hv]
  unfold pairKeyContrib
  rw [hv, ht, ht]
  simp [CQ.rsmul_zero, CQ.zero_sub_zero]

theorem includedB_neg {H Nt : ℕ} (e : Fin H → ℚ) (ω ts : ℚ) (A : Fin Nt → CMat H)
    (l k : ℤ) (x : Idx H) :
    includedB e ω ts A l k x = includedB e ω (-ts) A l k x := by
  unfold includedB
  rw [decide_eq_decide]
  rw [neg_sq]

theorem keySet_neg {H Nt : ℕ} (e : Fin H → ℚ) (ω ts : ℚ) (A : Fin Nt → CMat H)
    (l k : ℤ) :
    keySet e ω ts A l k = keySet e ω (-ts) A l k := by
  unfold keySet
  congr 1
  apply Finset.filter_congr
  intro x _
  rw [includedB_neg]

theorem anyIncludedB_neg {H Nt : ℕ} (e : Fin H → ℚ) (ω ts : ℚ) (A : Fin Nt → CMat H)
    (l k : ℤ) :
    anyIncludedB e ω ts A l k = anyIncludedB e ω (-ts) A l k := by
  unfold anyIncludedB
  rw [decide_eq_decide]
  exact exists_congr fun x => by rw [includedB_neg]

theorem maskB_neg {H Nt : ℕ} (e : Fin H → ℚ) (ω ts : ℚ) (A : Fin Nt → CMat H)
    (l k : ℤ) (key : ℚ) (x : Idx H) (hts : ts < 0) :
    maskB e ω ts A l k key x = maskB e ω (-ts) A l k key x := by
  have hplus : ¬(-ts ≤ 0) := by linarith
  have hfalse : ¬(-ts ≤ 0 ∧ key = 0 ∧ (0 : ℚ) ∉ keySet e ω (-ts) A l k) :=
    fun hc => hplus hc.1
  unfold maskB
  rw [if_neg hfalse]
  split_ifs with hc
  · obtain ⟨h1, h2, h3⟩ := hc
    subst h2
    by_cases hΔ : delta_shift e ω l k x = 0
    · simp [hΔ, delta_shift_zero_included e ω (-ts) A l k x hΔ]
    · simp [hΔ]
  · rw [includedB_neg]

theorem pairKeyContrib_key0_zero {H Nt : ℕ} (e : Fin H → ℚ) (ω ts : ℚ)
    (A : Fin Nt → CMat H) (w : ℤ → ℤ → Idx H → ℚ) (l k : ℤ)
    (hts : ts ≤ 0) (hnot : (0 : ℚ) ∉ keySet e ω ts A l k) :
    pairKeyContrib e ω ts A w l k 0 = (0 : CSup H) := by
  apply pairKeyContrib_eq_zero
  intro x
  unfold maskB
  rw [if_pos ⟨hts, rfl, hnot⟩]
  apply decide_eq_false
  intro hΔ
  exact hnot (hΔ ▸ mem_keySet_of_included e ω ts A l k x
    (delta_shift_zero_included e ω ts A l k x hΔ))

theorem validProd_neg {H Nt : ℕ} (e : Fin H → ℚ) (ω ts : ℚ) (A : Fin Nt → CMat H)
    (w : ℤ → ℤ → Idx H → ℚ) (l k : ℤ) (key : ℚ) (x : Idx H) (hts : ts < 0) :
    validProd e ω ts A w l k key x = validProd e ω (-ts) A w l k key x := by
  unfold validProd
  rw [maskB_neg e ω ts A l k key x hts]

theorem traceC02_neg {H Nt : ℕ} (e : Fin H → ℚ) (ω ts : ℚ) (A : Fin Nt → CMat H)
    (w : ℤ → ℤ → Idx H → ℚ) (l k : ℤ) (key : ℚ) (a b : Fin H) (hts : ts < 0) :
    traceC02 e ω ts A w l k key a b = traceC02 e ω (-ts) A w l k key a b := by
  unfold traceC02
  exact Finset.sum_congr rfl fun m _ => validProd_neg e ω ts A w l k key _ hts

theorem pairKeyContrib_neg {H Nt : ℕ} (e : Fin H → ℚ) (ω ts : ℚ)
    (A : Fin Nt → CMat H) (w : ℤ → ℤ → Idx H → ℚ) (l k : ℤ) (key : ℚ)
    (hts : ts < 0) :
    pairKeyContrib e ω ts A w l k key = pairKeyContrib e ω (-ts) A w l k key := by
  funext r c
  unfold pairKeyContrib
  rw [validProd_neg e ω ts A w l k key _ hts,
    traceC02_neg e ω ts A w l k key _ _ hts,
    traceC02_neg e ω ts A w l k key _ _ hts]

theorem accumPair_val_neg {H Nt : ℕ} (e : Fin H → ℚ) (ω ts : ℚ)
    (A : Fin Nt → CMat H) (w : ℤ → ℤ → Idx H → ℚ) (hts : ts < 0)
    (d₁ d₂ : RateDict H) (hval : d₁.val = d₂.val) (lk : ℤ × ℤ) :
    (accumPair e ω ts A w d₁ lk).val = (accumPair e ω (-ts) A w d₂ lk).val := by
  have hplus : ¬(-ts ≤ 0) := by linarith
  unfold accumPair
  rw [anyIncludedB_neg e ω ts A lk.1 lk.2]
  split_ifs with hany
  · funext q
    show (RateDict.addMany d₁ _ _).val q = (RateDict.addMany d₂ _ _).val q
    unfold RateDict.addMany
    dsimp only
    have hK : keySet e ω ts A lk.1 lk.2 = keySet e ω (-ts) A lk.1 lk.2 :=
      keySet_neg e ω ts A lk.1 lk.2
    have hmk1 : maskKeys e ω ts A lk.1 lk.2 =
        insert 0 (keySet e ω (-ts) A lk.1 lk.2) := by
      unfold maskKeys
      rw [if_pos (le_of_lt hts), hK]
    have hmk2 : maskKeys e ω (-ts) A lk.1 lk.2 = keySet e ω (-ts) A lk.1 lk.2 := by
      unfold maskKeys
      rw [if_neg hplus]
    rw [hmk1, hmk2, hval]
    by_cases h0 : (0 : ℚ) ∈ keySet e ω (-ts) A lk.1 lk.2
    · rw [Finset.insert_eq_self.mpr h0]
      by_cases hq : q ∈ keySet e ω (-ts) A lk.1 lk.2
      · rw [if_pos hq, if_pos hq, pairKeyContrib_neg e ω ts A w lk.1 lk.2 q hts]
      · rw [if_neg hq, if_neg hq]
    · by_cases hq : q ∈ insert (0 : ℚ) (keySet e ω (-ts) A lk.1 lk.2)
      · rcases Finset.mem_insert.mp hq with rfl | hq2
        · rw [if_pos hq, if_neg h0]
          have hz : pairKeyContrib e ω ts A w lk.1 lk.2 0 = 0 := by
            apply pairKeyContrib_key0_zero e ω ts A w lk.1 lk.2 (le_of_lt hts)
            rw [hK]
            exact h0
          rw [hz]
          exact add_zero _
        · rw [if_pos hq, if_pos hq2, pairKeyContrib_neg e ω ts A w lk.1 lk.2 q hts]
      · rw [if_neg hq, if_neg (fun h => hq (Finset.mem_insert_of_mem h))]
  · exact hval

theorem foldl_pairs_val_neg {H Nt : ℕ} (e : Fin H → ℚ) (ω ts : ℚ)
    (A : Fin Nt → CMat H) (w : ℤ → ℤ → Idx H → ℚ) (hts : ts < 0)
    (ps : List (ℤ × ℤ)) (d₁ d₂ : RateDict H) (hval : d₁.val = d₂.val) :
    (ps.foldl (fun d2 lk => accumPair e ω ts A w d2 lk) d₁).val =
      (ps.foldl (fun d2 lk => accumPair e ω (-ts) A w d2 lk) d₂).val := by
  induction ps generalizing d₁ d₂ with
  | nil => exact hval
  | cons lk t ih =>
      rw [List.foldl_cons, List.foldl_cons]
      exact ih _ _ (accumPair_val_neg e ω ts A w hts d₁ d₂ hval lk)

theorem foldl_camps_val_neg {H Nt : ℕ} (e : Fin H → ℚ) (ω ts : ℚ)
    (w : ℤ → ℤ → Idx H → ℚ) (hts : ts < 0) (c_amps : List (Fin Nt → CMat H))
    (d₁ d₂ : RateDict H) (hval : d₁.val = d₂.val) :
    (c_amps.foldl
        (fun d A => (pairsLK Nt).foldl (fun d2 lk => accumPair e ω ts A w d2 lk) d)
        d₁).val =
      (c_amps.foldl
        (fun d A => (pairsLK Nt).foldl (fun d2 lk => accumPair e ω (-ts) A w d2 lk) d)
        d₂).val := by
  induction c_amps generalizing d₁ d₂ with
  | nil => exact hval
  | cons A t ih =>
      rw [List.foldl_cons, List.foldl_cons]
      exact ih _ _ (foldl_pairs_val_neg e ω ts A w hts (pairsLK Nt) d₁ d₂ hval)

theorem unionKeys_neg {H Nt : ℕ} (e : Fin H → ℚ) (ω ts : ℚ) (A : Fin Nt → CMat H)
    (hts : ts < 0) :
    unionKeys e ω ts A (pairsLK Nt) = unionKeys e ω (-ts) A (pairsLK Nt) := by
  have hplus : ¬(-ts ≤ 0) := by linarith
  ext q
  rw [mem_unionKeys, mem_unionKeys]
  constructor
  · rintro ⟨lk, hlk, hq⟩
    unfold stepKeys at hq
    split_ifs at hq with hany
    swap
    · exact absurd hq (Finset.not_mem_empty q)
    unfold maskKeys at hq
    rw [if_pos (le_of_lt hts)] at hq
    rcases Finset.mem_insert.mp hq with rfl | hqK
    · obtain ⟨x, hx⟩ : ∃ x : Idx H, includedB e ω ts A lk.1 lk.2 x = true :=
        of_decide_eq_true hany
      have hH : 0 < H := x.1.pos
      have hl1 : lk.1 ∈ harmonics Nt := (List.pair_mem_product.mp hlk).1
      refine ⟨(lk.1, lk.1), ?_, ?_⟩
      · unfold pairsLK
        exact List.pair_mem_product.mpr ⟨hl1, hl1⟩
      · unfold stepKeys
        rw [if_pos (anyIncluded_diag e ω (-ts) A lk.1 hH)]
        unfold maskKeys
        rw [if_neg hplus]
        exact zero_mem_keySet_diag e ω (-ts) A lk.1 hH
    · refine ⟨lk, hlk, ?_⟩
      unfold stepKeys
      rw [if_pos (by rw [← anyIncludedB_neg]; exact hany)]
      unfold maskKeys
      rw [if_neg hplus, ← keySet_neg]
      exact hqK
  · rintro ⟨lk, hlk, hq⟩
    unfold stepKeys at hq
    split_ifs at hq with hany
    swap
    · exact absurd hq (Finset.not_mem_empty q)
    refine ⟨lk, hlk, ?_⟩
    unfold stepKeys
    rw [if_pos (by rw [anyIncludedB_neg]; exact hany)]
    unfold maskKeys
    rw [if_pos (le_of_lt hts)]
    apply Finset.mem_insert_of_mem
    rw [keySet_neg]
    unfold maskKeys at hq
    rw [if_neg hplus] at hq
    exact hq

theorem unionKeysC_neg {H Nt : ℕ} (e : Fin H → ℚ) (ω ts : ℚ)
    (c_amps : List (Fin Nt → CMat H)) (hts : ts < 0) :
    unionKeysC e ω ts c_amps = unionKeysC e ω (-ts) c_amps := by
  induction c_amps with
  | nil => simp [unionKeysC]
  | cons A t ih =>
      simp only [unionKeysC, List.foldr_cons] at ih ⊢
      rw [unionKeys_neg e ω ts A hts, ih]

theorem RateDict.extRD {H : ℕ} {d₁ d₂ : RateDict H} (hk : d₁.keys = d₂.keys)
    (hv : d₁.val = d₂.val) : d₁ = d₂ := by
  cases d₁
  cases d₂
  cases hk
  cases hv
  rfl

/-- C9 counterexample: at time_sense = -1 the produced mapping differs
from the time_sense = 0 mapping (it holds five keys instead of one):
negative cutoffs take the secular branch but the subsequent retention
test uses the magnitude of time_sense. -/
theorem rate_matrix_negative_cutoff_counterexample :
    _floquet_rate_matrix 2 1 (fun i => if i = 0 then 0 else 1 / 4) 1 (-1)
        (fun _ => 1 / 2) [fun _ => fun _ _ => ⟨1, 0⟩] ≠
      _floquet_rate_matrix 2 1 (fun i => if i = 0 then 0 else 1 / 4) 1 0
        (fun _ => 1 / 2) [fun _ => fun _ _ => ⟨1, 0⟩] := by
  intro h
  have hk := congrArg RateDict.keys h
  have hne : (_floquet_rate_matrix 2 1 (fun i => if i = 0 then 0 else 1 / 4) 1 (-1)
        (fun _ => 1 / 2) [fun _ => fun _ _ => ⟨1, 0⟩]).keys ≠
      (_floquet_rate_matrix 2 1 (fun i => if i = 0 then 0 else 1 / 4) 1 0
        (fun _ => 1 / 2) [fun _ => fun _ _ => ⟨1, 0⟩]).keys := by
    decide
  exact hne hk

/-- C9 (amended): for every time_sense < 0, _floquet_rate_matrix
produces exactly the same rate tensor mapping as at the positive cutoff
-time_sense (not as at 0): the secular branch is taken, but the
retention test compares against |rate_products * time_sense|. -/
theorem rate_matrix_negative_cutoff (H Nt : ℕ) (e : Fin H → ℚ) (ω ts : ℚ)
    (ps : ℚ → ℚ) (c_amps : List (Fin Nt → CMat H)) (hts : ts < 0) :
    _floquet_rate_matrix H Nt e ω ts ps c_amps =
      _floquet_rate_matrix H Nt e ω (-ts) ps c_amps := by
  apply RateDict.extRD
  · unfold _floquet_rate_matrix
    rw [rateCore_keys, rateCore_keys]
    exact unionKeysC_neg e ω ts c_amps hts
  · unfold _floquet_rate_matrix rateCore
    exact foldl_camps_val_neg e ω ts _ hts c_amps (emptyRD H) (emptyRD H) rfl

/-- Witness for C9 (amended) at a concrete instance. -/
theorem rate_matrix_negative_cutoff_witness :
    ((-1 : ℚ) < 0) ∧
      _floquet_rate_matrix 1 1 (fun _ => 0) 1 (-1) (fun _ => 1 / 2)
          [fun _ => fun _ _ => ⟨1, 0⟩] =
        _floquet_rate_matrix 1 1 (fun _ => 0) 1 (-(-1)) (fun _ => 1 / 2)
          [fun _ => fun _ _ => ⟨1, 0⟩] :=
  ⟨by norm_num,
    rate_matrix_negative_cutoff 1 1 (fun _ => 0) 1 (-1) (fun _ => 1 / 2)
      [fun _ => fun _ _ => ⟨1, 0⟩] (by norm_num)⟩

end Flime
